import Mathlib

/-!
Shallow embedding of `src/networkx/generators/time_series.py`: the natural
visibility graph, the horizontal visibility graph and its directed variant.

Series values are modelled as rationals (exact arithmetic for the slope
division in the natural predicate).  A networkx graph is modelled as a node
set, an edge set and the node attribute map `value`; for the undirected
constructors `add_edge` stores the pair normalised smaller-index-first, so
that membership of the unordered edge `\x7bi, j\x7d` with `i < j` is membership
of the pair `(i, j)`.
-/

namespace TimeSeries

/-- Python slice `l[a:b]` for `0 ≤ a ≤ b` (clamped at the list's end). -/
def pySlice (l : List ℚ) (a b : ℕ) : List ℚ :=
  (l.drop a).take (b - a)

/-- All ordered pairs of elements of `l`, earlier element first: the meaning
of `itertools.combinations(l, 2)`. -/
def combinations2 {α : Type} : List α → List (α × α)
  | [] => []
  | x :: xs => (xs.map fun y => (x, y)) ++ combinations2 xs

/-- Model of a networkx graph: node set, edge set (pairs of node indices) and
the node attribute `value`. -/
structure NXGraph where
  nodes : Finset ℕ
  edgeSet : Finset (ℕ × ℕ)
  value : ℕ → Option ℚ

/-- Undirected `G.add_edge(u, v)`: both endpoints become nodes and the edge is
stored normalised, smaller index first. -/
def NXGraph.addEdge (G : NXGraph) (u v : ℕ) : NXGraph :=
  { G with nodes := insert u (insert v G.nodes),
           edgeSet := insert (min u v, max u v) G.edgeSet }

/-- Directed `G.add_edge(u, v)` of a DiGraph: the ordered pair is stored. -/
def NXGraph.addEdgeDir (G : NXGraph) (u v : ℕ) : NXGraph :=
  { G with nodes := insert u (insert v G.nodes),
           edgeSet := insert (u, v) G.edgeSet }

/-- Model of `nx.path_graph(n)` (also of its DiGraph form, whose edges are
`i → i+1`, already smaller index first): nodes `0..n-1` and the consecutive
edges, with no `value` attribute yet. -/
def path_graph (n : ℕ) : NXGraph :=
  { nodes := Finset.range n,
    edgeSet := (Finset.range (n - 1)).image fun i => (i, i + 1),
    value := fun _ => none }

/-- Model of `nx.set_node_attributes(G, dict(enumerate(series)), "value")`:
node `i` gets value `series[i]`. -/
def set_node_attributes (G : NXGraph) (series : List ℚ) : NXGraph :=
  { G with value := fun i => series[i]? }

/-- Obstruction test of `visibility_graph` for the pair `(n1, t1), (n2, t2)`:
some point of `enumerate(series[n1+1:n2], start=n1+1)` lies on or above the
line through the two endpoints. -/
def naturalObstructed (series : List ℚ) (n1 : ℕ) (t1 : ℚ) (n2 : ℕ) (t2 : ℚ) : Bool :=
  let slope := (t2 - t1) / ((n2 : ℚ) - (n1 : ℚ))
  let offset := t2 - slope * (n2 : ℚ)
  (List.enumFrom (n1 + 1) (pySlice series (n1 + 1) n2)).any fun p =>
    decide (slope * (p.1 : ℚ) + offset ≤ p.2)

/-- Obstruction test of `horizontal_visibility_graph` (and of its directed
variant): some intermediate value reaches `max t1 t2`. -/
def horizontalObstructed (series : List ℚ) (n1 : ℕ) (t1 : ℚ) (n2 : ℕ) (t2 : ℚ) : Bool :=
  (List.enumFrom (n1 + 1) (pySlice series (n1 + 1) n2)).any fun p =>
    decide (max t1 t2 ≤ p.2)

/-- Embedding of `visibility_graph(series)`: seed the path graph and the node
values, then scan `itertools.combinations(enumerate(series), 2)` adding an
edge for every unobstructed pair. -/
def visibility_graph (series : List ℚ) : NXGraph :=
  (combinations2 series.enum).foldl
    (fun G p =>
      if naturalObstructed series p.1.1 p.1.2 p.2.1 p.2.2 then G
      else G.addEdge p.1.1 p.2.1)
    (set_node_attributes (path_graph series.length) series)

/-- Embedding of `horizontal_visibility_graph(timeseries)`. -/
def horizontal_visibility_graph (timeseries : List ℚ) : NXGraph :=
  (combinations2 timeseries.enum).foldl
    (fun G p =>
      if horizontalObstructed timeseries p.1.1 p.1.2 p.2.1 p.2.2 then G
      else G.addEdge p.1.1 p.2.1)
    (set_node_attributes (path_graph timeseries.length) timeseries)

/-- Embedding of `directed_horizontal_visibility_graph(timeseries)`: same scan
as the undirected horizontal graph, emitting directed edges into a DiGraph. -/
def directed_horizontal_visibility_graph (timeseries : List ℚ) : NXGraph :=
  (combinations2 timeseries.enum).foldl
    (fun G p =>
      if horizontalObstructed timeseries p.1.1 p.1.2 p.2.1 p.2.2 then G
      else G.addEdgeDir p.1.1 p.2.1)
    (set_node_attributes (path_graph timeseries.length) timeseries)

/-- Slope of the connecting line in the claims' own words, read off the
series: `slope = (series[j] - series[i]) / (j - i)`. -/
def specSlope (series : List ℚ) (i j : ℕ) : ℚ :=
  (series.getD j 0 - series.getD i 0) / ((j : ℚ) - (i : ℚ))

/-- Offset of the connecting line in the claims' own words:
`offset = series[j] - slope * j`. -/
def specOffset (series : List ℚ) (i j : ℕ) : ℚ :=
  series.getD j 0 - specSlope series i j * (j : ℚ)

/-- The obstruction condition of the natural variant at an intermediate index
`k`: `series[k] >= slope * k + offset`. -/
def naturalBlocks (series : List ℚ) (i j k : ℕ) : Prop :=
  specSlope series i j * (k : ℚ) + specOffset series i j ≤ series.getD k 0

instance (series : List ℚ) (i j k : ℕ) : Decidable (naturalBlocks series i j k) := by
  unfold naturalBlocks; infer_instance

/-- The obstruction condition of the horizontal variant at an intermediate
index `k`: `series[k] >= max(series[i], series[j])`. -/
def horizontalBlocks (series : List ℚ) (i j k : ℕ) : Prop :=
  max (series.getD i 0) (series.getD j 0) ≤ series.getD k 0

instance (series : List ℚ) (i j k : ℕ) : Decidable (horizontalBlocks series i j k) := by
  unfold horizontalBlocks; infer_instance

/-! Helper lemmas about the interior scan, `combinations2` and the edge fold. -/

theorem pySlice_length (l : List ℚ) (a b : ℕ) (hb : b ≤ l.length) :
    (pySlice l a b).length = b - a := by
  unfold pySlice
  rw [List.length_take, List.length_drop]
  omega

theorem pySlice_getElem? (l : List ℚ) (a b m : ℕ) (hm : m < b - a) :
    (pySlice l a b)[m]? = l[a + m]? := by
  unfold pySlice
  rw [List.getElem?_take_of_lt hm, List.getElem?_drop]

theorem mem_interior_iff (l : List ℚ) (i j k : ℕ) (t : ℚ) (hj : j ≤ l.length) :
    (k, t) ∈ List.enumFrom (i + 1) (pySlice l (i + 1) j) ↔
      i < k ∧ k < j ∧ l[k]? = some t := by
  rw [List.mk_mem_enumFrom_iff_le_and_getElem?_sub]
  constructor
  · rintro ⟨h1, h2⟩
    have hlt : k - (i + 1) < (pySlice l (i + 1) j).length := by
      by_contra hge
      rw [List.getElem?_eq_none (Nat.le_of_not_lt hge)] at h2
      exact Option.noConfusion h2
    rw [pySlice_length l _ _ hj] at hlt
    have hk : k < j := by omega
    refine ⟨by omega, hk, ?_⟩
    rw [pySlice_getElem? l (i + 1) j _ (by omega)] at h2
    have : i + 1 + (k - (i + 1)) = k := by omega
    rwa [this] at h2
  · rintro ⟨h1, h2, h3⟩
    refine ⟨by omega, ?_⟩
    rw [pySlice_getElem? l (i + 1) j _ (by omega)]
    have : i + 1 + (k - (i + 1)) = k := by omega
    rw [this, h3]

theorem any_interior_iff (l : List ℚ) (i j : ℕ) (f : ℕ × ℚ → Bool) (hj : j ≤ l.length) :
    ((List.enumFrom (i + 1) (pySlice l (i + 1) j)).any f = true ↔
      ∃ k, i < k ∧ k < j ∧ f (k, l.getD k 0) = true) := by
  rw [List.any_eq_true]
  constructor
  · rintro ⟨⟨k, t⟩, hmem, hf⟩
    obtain ⟨h1, h2, h3⟩ := (mem_interior_iff l i j k t hj).1 hmem
    refine ⟨k, h1, h2, ?_⟩
    have : l.getD k 0 = t := by
      rw [List.getD_eq_getElem?_getD, h3]
      rfl
    rwa [this]
  · rintro ⟨k, h1, h2, hf⟩
    refine ⟨(k, l.getD k 0), ?_, hf⟩
    rw [mem_interior_iff l i j k _ hj]
    refine ⟨h1, h2, ?_⟩
    have hk : k < l.length := by omega
    rw [List.getD_eq_getElem?_getD, List.getElem?_eq_getElem hk]
    rfl

theorem mem_combinations2_enumFrom (l : List ℚ) (s : ℕ) (p : (ℕ × ℚ) × (ℕ × ℚ)) :
    p ∈ combinations2 (List.enumFrom s l) ↔
      s ≤ p.1.1 ∧ p.1.1 < p.2.1 ∧ p.2.1 < s + l.length ∧
        l[p.1.1 - s]? = some p.1.2 ∧ l[p.2.1 - s]? = some p.2.2 := by
  induction l generalizing s with
  | nil =>
    simp only [List.enumFrom_nil, combinations2, List.not_mem_nil, false_iff]
    rintro ⟨h1, h2, h3, -⟩
    simp only [List.length_nil] at h3
    omega
  | cons x xs ih =>
    obtain ⟨⟨a1, a2⟩, ⟨b1, b2⟩⟩ := p
    have ih' : ∀ s : ℕ,
        (((a1, a2), (b1, b2)) ∈ combinations2 (List.enumFrom s xs) ↔
          s ≤ a1 ∧ a1 < b1 ∧ b1 < s + xs.length ∧
            xs[a1 - s]? = some a2 ∧ xs[b1 - s]? = some b2) :=
      fun s => ih s
    rw [List.enumFrom_cons]
    simp only [combinations2, List.mem_append, List.mem_map, List.length_cons]
    constructor
    · rintro (⟨⟨y1, y2⟩, hy, heq⟩ | h)
      · obtain ⟨hy1, hy2⟩ := List.mk_mem_enumFrom_iff_le_and_getElem?_sub.1 hy
        have hylt : y1 < s + 1 + xs.length := List.fst_lt_add_of_mem_enumFrom hy
        injection heq with h1 h2
        injection h1 with ha1 ha2
        injection h2 with hb1 hb2
        subst ha1
        subst ha2
        subst hb1
        subst hb2
        refine ⟨le_refl s, by omega, by omega, by simp, ?_⟩
        have hrw : y1 - s = (y1 - (s + 1)) + 1 := by omega
        rw [hrw, List.getElem?_cons_succ]
        exact hy2
      · obtain ⟨h1, h2, h3, h4, h5⟩ := (ih' (s + 1)).1 h
        refine ⟨by omega, h2, by omega, ?_, ?_⟩
        · have hrw : a1 - s = (a1 - (s + 1)) + 1 := by omega
          rw [hrw, List.getElem?_cons_succ]
          exact h4
        · have hrw : b1 - s = (b1 - (s + 1)) + 1 := by omega
          rw [hrw, List.getElem?_cons_succ]
          exact h5
    · rintro ⟨h1, h2, h3, h4, h5⟩
      rcases Nat.eq_or_lt_of_le h1 with heq | hlt
      · left
        have ha2 : a2 = x := by
          rw [← heq, Nat.sub_self, List.getElem?_cons_zero] at h4
          injection h4 with h4
          exact h4.symm
        refine ⟨(b1, b2), ?_, ?_⟩
        · rw [List.mk_mem_enumFrom_iff_le_and_getElem?_sub]
          refine ⟨by omega, ?_⟩
          have hrw : b1 - s = (b1 - (s + 1)) + 1 := by omega
          rw [hrw, List.getElem?_cons_succ] at h5
          exact h5
        · rw [ha2, heq]
      · right
        refine (ih' (s + 1)).2 ⟨?_, ?_, ?_, ?_, ?_⟩
        · omega
        · exact h2
        · omega
        · have hrw : a1 - s = (a1 - (s + 1)) + 1 := by omega
          rw [hrw, List.getElem?_cons_succ] at h4
          exact h4
        · have hrw : b1 - s = (b1 - (s + 1)) + 1 := by omega
          rw [hrw, List.getElem?_cons_succ] at h5
          exact h5

theorem mem_combinations2_enum (l : List ℚ) (p : (ℕ × ℚ) × (ℕ × ℚ)) :
    p ∈ combinations2 l.enum ↔
      p.1.1 < p.2.1 ∧ p.2.1 < l.length ∧
        l[p.1.1]? = some p.1.2 ∧ l[p.2.1]? = some p.2.2 := by
  rw [List.enum_eq_enumFrom, mem_combinations2_enumFrom]
  simp only [Nat.sub_zero, Nat.zero_add, Nat.zero_le, true_and]

theorem edgeSet_foldl {α : Type} (g : NXGraph → α → NXGraph)
    (h : α → Finset (ℕ × ℕ))
    (hg : ∀ G a, (g G a).edgeSet = G.edgeSet ∪ h a)
    (l : List α) (G : NXGraph) (e : ℕ × ℕ) :
    (e ∈ (l.foldl g G).edgeSet ↔ e ∈ G.edgeSet ∨ ∃ a ∈ l, e ∈ h a) := by
  induction l generalizing G with
  | nil => simp
  | cons a l ih =>
    rw [List.foldl_cons, ih, hg]
    simp only [Finset.mem_union, List.mem_cons]
    constructor
    · rintro ((h1 | h1) | ⟨b, hb, he⟩)
      · exact Or.inl h1
      · exact Or.inr ⟨a, Or.inl rfl, h1⟩
      · exact Or.inr ⟨b, Or.inr hb, he⟩
    · rintro (h1 | ⟨b, (rfl | hb), he⟩)
      · exact Or.inl (Or.inl h1)
      · exact Or.inl (Or.inr he)
      · exact Or.inr ⟨b, hb, he⟩

theorem nodes_foldl {α : Type} (g : NXGraph → α → NXGraph)
    (h : α → Finset ℕ)
    (hg : ∀ G a, (g G a).nodes = G.nodes ∪ h a)
    (l : List α) (G : NXGraph) (v : ℕ) :
    (v ∈ (l.foldl g G).nodes ↔ v ∈ G.nodes ∨ ∃ a ∈ l, v ∈ h a) := by
  induction l generalizing G with
  | nil => simp
  | cons a l ih =>
    rw [List.foldl_cons, ih, hg]
    simp only [Finset.mem_union, List.mem_cons]
    constructor
    · rintro ((h1 | h1) | ⟨b, hb, he⟩)
      · exact Or.inl h1
      · exact Or.inr ⟨a, Or.inl rfl, h1⟩
      · exact Or.inr ⟨b, Or.inr hb, he⟩
    · rintro (h1 | ⟨b, (rfl | hb), he⟩)
      · exact Or.inl (Or.inl h1)
      · exact Or.inl (Or.inr he)
      · exact Or.inr ⟨b, hb, he⟩

theorem value_foldl {α : Type} (g : NXGraph → α → NXGraph)
    (hg : ∀ G a, (g G a).value = G.value)
    (l : List α) (G : NXGraph) :
    (l.foldl g G).value = G.value := by
  induction l generalizing G with
  | nil => rfl
  | cons a l ih => rw [List.foldl_cons, ih, hg]

theorem getElem?_eq_some_getD (l : List ℚ) (i : ℕ) (h : i < l.length) :
    l[i]? = some (l.getD i 0) := by
  rw [List.getD_eq_getElem?_getD, List.getElem?_eq_getElem h]
  rfl

theorem getD_eq_of_getElem? (l : List ℚ) (i : ℕ) (t : ℚ) (h : l[i]? = some t) :
    l.getD i 0 = t := by
  rw [List.getD_eq_getElem?_getD, h]
  rfl

theorem addEdge_edgeSet (G : NXGraph) (u v : ℕ) :
    (G.addEdge u v).edgeSet = G.edgeSet ∪ {(min u v, max u v)} := by
  show insert (min u v, max u v) G.edgeSet = G.edgeSet ∪ {(min u v, max u v)}
  rw [Finset.insert_eq, Finset.union_comm]

theorem mem_path_graph_edgeSet (n : ℕ) (e : ℕ × ℕ) :
    e ∈ (path_graph n).edgeSet ↔ ∃ i, i + 1 < n ∧ e = (i, i + 1) := by
  unfold path_graph
  simp only [Finset.mem_image, Finset.mem_range]
  constructor
  · rintro ⟨i, hi, rfl⟩
    exact ⟨i, by omega, rfl⟩
  · rintro ⟨i, hi, rfl⟩
    exact ⟨i, by omega, rfl⟩

theorem mem_scan_edgeSet (series : List ℚ) (ob : ℕ → ℚ → ℕ → ℚ → Bool)
    (G0 : NXGraph) (e : ℕ × ℕ) :
    (e ∈ ((combinations2 series.enum).foldl
        (fun G p => if ob p.1.1 p.1.2 p.2.1 p.2.2 then G else G.addEdge p.1.1 p.2.1)
        G0).edgeSet ↔
      e ∈ G0.edgeSet ∨
        ∃ i j, i < j ∧ j < series.length ∧
          ob i (series.getD i 0) j (series.getD j 0) = false ∧ e = (i, j)) := by
  have hstep : ∀ (G : NXGraph) (p : (ℕ × ℚ) × (ℕ × ℚ)),
      ((if ob p.1.1 p.1.2 p.2.1 p.2.2 then G else G.addEdge p.1.1 p.2.1) : NXGraph).edgeSet =
        G.edgeSet ∪
          (if ob p.1.1 p.1.2 p.2.1 p.2.2 then (∅ : Finset (ℕ × ℕ))
           else {(min p.1.1 p.2.1, max p.1.1 p.2.1)}) := by
    intro G p
    by_cases hob : ob p.1.1 p.1.2 p.2.1 p.2.2
    · simp [hob]
    · simp [hob, addEdge_edgeSet]
  rw [edgeSet_foldl _ _ hstep]
  apply or_congr Iff.rfl
  constructor
  · rintro ⟨p, hp, he⟩
    obtain ⟨h1, h2, h3, h4⟩ := (mem_combinations2_enum series p).1 hp
    by_cases hob : ob p.1.1 p.1.2 p.2.1 p.2.2
    · rw [if_pos hob] at he
      exact absurd he (Finset.not_mem_empty e)
    · rw [if_neg hob, Finset.mem_singleton] at he
      refine ⟨p.1.1, p.2.1, h1, h2, ?_, ?_⟩
      · rw [getD_eq_of_getElem? series _ _ h3, getD_eq_of_getElem? series _ _ h4]
        exact Bool.eq_false_iff.2 hob
      · rw [he, min_eq_left (Nat.le_of_lt h1), max_eq_right (Nat.le_of_lt h1)]
  · rintro ⟨i, j, hij, hj, hob, rfl⟩
    refine ⟨((i, series.getD i 0), (j, series.getD j 0)), ?_, ?_⟩
    · rw [mem_combinations2_enum]
      exact ⟨hij, hj, getElem?_eq_some_getD series i (by omega),
        getElem?_eq_some_getD series j hj⟩
    · have hred : (if ob i (series.getD i 0) j (series.getD j 0) then (∅ : Finset (ℕ × ℕ))
          else {(min i j, max i j)}) = {(min i j, max i j)} := by
        rw [hob]
        rfl
      rw [hred, Finset.mem_singleton, min_eq_left (Nat.le_of_lt hij),
        max_eq_right (Nat.le_of_lt hij)]

theorem directed_eq_horizontal (timeseries : List ℚ) :
    directed_horizontal_visibility_graph timeseries =
      horizontal_visibility_graph timeseries := by
  unfold directed_horizontal_visibility_graph horizontal_visibility_graph
  apply List.foldl_ext
  intro G p hp
  have hlt : p.1.1 < p.2.1 := ((mem_combinations2_enum timeseries p).1 hp).1
  by_cases hob : horizontalObstructed timeseries p.1.1 p.1.2 p.2.1 p.2.2
  · rw [if_pos hob, if_pos hob]
  · rw [if_neg hob, if_neg hob, NXGraph.addEdge, NXGraph.addEdgeDir,
      min_eq_left (Nat.le_of_lt hlt), max_eq_right (Nat.le_of_lt hlt)]

theorem mem_visibility_graph_edgeSet (series : List ℚ) (e : ℕ × ℕ) :
    e ∈ (visibility_graph series).edgeSet ↔
      (∃ i, i + 1 < series.length ∧ e = (i, i + 1)) ∨
        ∃ i j, i < j ∧ j < series.length ∧
          naturalObstructed series i (series.getD i 0) j (series.getD j 0) = false ∧
          e = (i, j) := by
  unfold visibility_graph
  rw [mem_scan_edgeSet series (fun n1 t1 n2 t2 => naturalObstructed series n1 t1 n2 t2)]
  apply or_congr _ Iff.rfl
  exact mem_path_graph_edgeSet series.length e

theorem mem_horizontal_edgeSet (timeseries : List ℚ) (e : ℕ × ℕ) :
    e ∈ (horizontal_visibility_graph timeseries).edgeSet ↔
      (∃ i, i + 1 < timeseries.length ∧ e = (i, i + 1)) ∨
        ∃ i j, i < j ∧ j < timeseries.length ∧
          horizontalObstructed timeseries i (timeseries.getD i 0) j (timeseries.getD j 0)
            = false ∧
          e = (i, j) := by
  unfold horizontal_visibility_graph
  rw [mem_scan_edgeSet timeseries
    (fun n1 t1 n2 t2 => horizontalObstructed timeseries n1 t1 n2 t2)]
  apply or_congr _ Iff.rfl
  exact mem_path_graph_edgeSet timeseries.length e

theorem naturalObstructed_iff (series : List ℚ) (i j : ℕ) (hj : j ≤ series.length) :
    (naturalObstructed series i (series.getD i 0) j (series.getD j 0) = true ↔
      ∃ k, i < k ∧ k < j ∧ naturalBlocks series i j k) := by
  simp only [naturalObstructed]
  rw [any_interior_iff series i j _ hj]
  simp only [decide_eq_true_eq, naturalBlocks, specSlope, specOffset]

theorem horizontalObstructed_iff (series : List ℚ) (i j : ℕ) (hj : j ≤ series.length) :
    (horizontalObstructed series i (series.getD i 0) j (series.getD j 0) = true ↔
      ∃ k, i < k ∧ k < j ∧ horizontalBlocks series i j k) := by
  simp only [horizontalObstructed]
  rw [any_interior_iff series i j _ hj]
  simp only [decide_eq_true_eq, horizontalBlocks]

theorem addEdge_nodes (G : NXGraph) (u v : ℕ) :
    (G.addEdge u v).nodes = G.nodes ∪ {u, v} := by
  show insert u (insert v G.nodes) = G.nodes ∪ {u, v}
  ext w
  simp only [Finset.mem_insert, Finset.mem_union, Finset.mem_singleton]
  tauto

theorem scan_nodes (series : List ℚ) (ob : ℕ → ℚ → ℕ → ℚ → Bool) (G0 : NXGraph)
    (h0 : G0.nodes = Finset.range series.length) :
    ((combinations2 series.enum).foldl
        (fun G p => if ob p.1.1 p.1.2 p.2.1 p.2.2 then G else G.addEdge p.1.1 p.2.1)
        G0).nodes = Finset.range series.length := by
  have hstep : ∀ (G : NXGraph) (p : (ℕ × ℚ) × (ℕ × ℚ)),
      ((if ob p.1.1 p.1.2 p.2.1 p.2.2 then G else G.addEdge p.1.1 p.2.1) : NXGraph).nodes =
        G.nodes ∪
          (if ob p.1.1 p.1.2 p.2.1 p.2.2 then (∅ : Finset ℕ) else {p.1.1, p.2.1}) := by
    intro G p
    by_cases hob : ob p.1.1 p.1.2 p.2.1 p.2.2
    · simp [hob]
    · simp [hob, addEdge_nodes]
  ext v
  rw [nodes_foldl _ _ hstep, h0]
  constructor
  · rintro (hv | ⟨p, hp, hv⟩)
    · exact hv
    · obtain ⟨h1, h2, -, -⟩ := (mem_combinations2_enum series p).1 hp
      by_cases hob : ob p.1.1 p.1.2 p.2.1 p.2.2
      · rw [if_pos hob] at hv
        exact absurd hv (Finset.not_mem_empty v)
      · rw [if_neg hob, Finset.mem_insert, Finset.mem_singleton] at hv
        rw [Finset.mem_range]
        rcases hv with rfl | rfl <;> omega
  · exact Or.inl

theorem scan_value (series : List ℚ) (ob : ℕ → ℚ → ℕ → ℚ → Bool) (G0 : NXGraph) :
    ((combinations2 series.enum).foldl
        (fun G p => if ob p.1.1 p.1.2 p.2.1 p.2.2 then G else G.addEdge p.1.1 p.2.1)
        G0).value = G0.value := by
  apply value_foldl
  intro G p
  by_cases hob : ob p.1.1 p.1.2 p.2.1 p.2.2
  · rw [if_pos hob]
  · rw [if_neg hob]
    rfl

theorem horizontal_edge_lt (timeseries : List ℚ) :
    ∀ e ∈ (horizontal_visibility_graph timeseries).edgeSet, e.1 < e.2 := by
  intro e he
  rw [mem_horizontal_edgeSet] at he
  rcases he with ⟨i, hi, rfl⟩ | ⟨i, j, h1, h2, h3, rfl⟩
  · exact Nat.lt_succ_self i
  · exact h1

theorem pySlice_map_add (l : List ℚ) (c : ℚ) (a b : ℕ) :
    pySlice (l.map fun t => t + c) a b = (pySlice l a b).map fun t => t + c := by
  unfold pySlice
  rw [List.map_take, List.map_drop]

theorem getD_map_add (l : List ℚ) (c : ℚ) (k : ℕ) (h : k < l.length) :
    (l.map fun t => t + c).getD k 0 = l.getD k 0 + c := by
  rw [List.getD_eq_getElem?_getD, List.getD_eq_getElem?_getD, List.getElem?_map,
    List.getElem?_eq_getElem h]
  rfl

theorem naturalObstructed_map_add (series : List ℚ) (c : ℚ) (n1 n2 : ℕ) (t1 t2 : ℚ) :
    naturalObstructed (series.map fun t => t + c) n1 (t1 + c) n2 (t2 + c) =
      naturalObstructed series n1 t1 n2 t2 := by
  simp only [naturalObstructed]
  rw [pySlice_map_add, List.enumFrom_map, List.any_map]
  congr 1
  funext p
  simp only [Function.comp_apply, Prod.map_fst, Prod.map_snd, id_eq]
  rw [decide_eq_decide]
  have hs : t2 + c - (t1 + c) = t2 - t1 := by ring
  rw [hs]
  constructor <;> intro h <;> linarith [h]

theorem horizontalObstructed_map_add (series : List ℚ) (c : ℚ) (n1 n2 : ℕ) (t1 t2 : ℚ) :
    horizontalObstructed (series.map fun t => t + c) n1 (t1 + c) n2 (t2 + c) =
      horizontalObstructed series n1 t1 n2 t2 := by
  simp only [horizontalObstructed]
  rw [pySlice_map_add, List.enumFrom_map, List.any_map]
  congr 1
  funext p
  simp only [Function.comp_apply, Prod.map_fst, Prod.map_snd, id_eq]
  rw [decide_eq_decide, max_add_add_right]
  exact ⟨fun h => le_of_add_le_add_right h, fun h => add_le_add_right h c⟩

theorem visibility_graph_map_add (series : List ℚ) (c : ℚ) :
    (visibility_graph (series.map fun t => t + c)).edgeSet =
      (visibility_graph series).edgeSet := by
  ext e
  rw [mem_visibility_graph_edgeSet, mem_visibility_graph_edgeSet, List.length_map]
  apply or_congr Iff.rfl
  constructor
  · rintro ⟨i, j, h1, h2, h3, rfl⟩
    refine ⟨i, j, h1, h2, ?_, rfl⟩
    rw [getD_map_add series c i (by omega), getD_map_add series c j h2,
      naturalObstructed_map_add] at h3
    exact h3
  · rintro ⟨i, j, h1, h2, h3, rfl⟩
    refine ⟨i, j, h1, h2, ?_, rfl⟩
    rw [getD_map_add series c i (by omega), getD_map_add series c j h2,
      naturalObstructed_map_add]
    exact h3

theorem horizontal_map_add (series : List ℚ) (c : ℚ) :
    (horizontal_visibility_graph (series.map fun t => t + c)).edgeSet =
      (horizontal_visibility_graph series).edgeSet := by
  ext e
  rw [mem_horizontal_edgeSet, mem_horizontal_edgeSet, List.length_map]
  apply or_congr Iff.rfl
  constructor
  · rintro ⟨i, j, h1, h2, h3, rfl⟩
    refine ⟨i, j, h1, h2, ?_, rfl⟩
    rw [getD_map_add series c i (by omega), getD_map_add series c j h2,
      horizontalObstructed_map_add] at h3
    exact h3
  · rintro ⟨i, j, h1, h2, h3, rfl⟩
    refine ⟨i, j, h1, h2, ?_, rfl⟩
    rw [getD_map_add series c i (by omega), getD_map_add series c j h2,
      horizontalObstructed_map_add]
    exact h3

theorem vg_nodes (series : List ℚ) :
    (visibility_graph series).nodes = Finset.range series.length :=
  scan_nodes series _ _ rfl

theorem hvg_nodes (timeseries : List ℚ) :
    (horizontal_visibility_graph timeseries).nodes
      = Finset.range timeseries.length :=
  scan_nodes timeseries _ _ rfl

theorem vg_value (series : List ℚ) :
    (visibility_graph series).value = fun k => series[k]? :=
  scan_value series _ _

theorem hvg_value (timeseries : List ℚ) :
    (horizontal_visibility_graph timeseries).value = fun k => timeseries[k]? :=
  scan_value timeseries _ _

theorem ramp_getD (n k : ℕ) (hk : k < n) :
    ((List.range n).map fun i : ℕ => (i : ℚ)).getD k 0 = (k : ℚ) := by
  rw [List.getD_eq_getElem?_getD, List.getElem?_map, List.getElem?_range hk]
  rfl

theorem ramp_blocks (n i j : ℕ) (h1 : i < j) (h2 : j < n) (h3 : i + 1 < j) :
    naturalBlocks ((List.range n).map fun i : ℕ => (i : ℚ)) i j (i + 1) := by
  simp only [naturalBlocks, specOffset, specSlope]
  rw [ramp_getD n i (by omega), ramp_getD n j (by omega), ramp_getD n (i + 1) (by omega)]
  have hne : ((j : ℚ) - (i : ℚ)) ≠ 0 := by
    have hij : (i : ℚ) < (j : ℚ) := by exact_mod_cast h1
    linarith
  rw [div_self hne]
  linarith

theorem vg_ramp_edges :
    (visibility_graph ((List.range 10).map fun i : ℕ => (i : ℚ))).edgeSet
      = (Finset.range 9).image fun i => (i, i + 1) := by
  ext e
  rw [mem_visibility_graph_edgeSet, Finset.mem_image]
  simp only [List.length_map, List.length_range]
  constructor
  · rintro (⟨i, hi, rfl⟩ | ⟨i, j, h1, h2, h3, rfl⟩)
    · exact ⟨i, Finset.mem_range.2 (by omega), rfl⟩
    · by_cases hcons : j = i + 1
      · subst hcons
        exact ⟨i, Finset.mem_range.2 (by omega), rfl⟩
      · exfalso
        have hobs : naturalObstructed ((List.range 10).map fun i : ℕ => (i : ℚ)) i
            (((List.range 10).map fun i : ℕ => (i : ℚ)).getD i 0) j
            (((List.range 10).map fun i : ℕ => (i : ℚ)).getD j 0) = true := by
          rw [naturalObstructed_iff _ i j (by simp only [List.length_map, List.length_range]; omega)]
          exact ⟨i + 1, by omega, by omega, ramp_blocks 10 i j h1 h2 (by omega)⟩
        rw [h3] at hobs
        exact absurd hobs Bool.false_ne_true
  · rintro ⟨i, hi, rfl⟩
    rw [Finset.mem_range] at hi
    exact Or.inl ⟨i, by omega, rfl⟩

/-! Claim theorems. -/

/-- C1: for every numeric series and pair of indices `i < j < length`, the
visibility graph contains the edge `\x7bi, j\x7d` iff no intermediate index `k`
with `i < k < j` satisfies `series[k] >= slope * k + offset`, where
`slope = (series[j] - series[i]) / (j - i)` and
`offset = series[j] - slope * j`; an empty interior is vacuously
unobstructed. -/
theorem visibility_graph_edge_iff (series : List ℚ) (i j : ℕ)
    (hij : i < j) (hj : j < series.length) :
    ((i, j) ∈ (visibility_graph series).edgeSet ↔
      ∀ k ∈ Finset.Ioo i j, ¬ naturalBlocks series i j k) := by
  rw [mem_visibility_graph_edgeSet]
  constructor
  · rintro (⟨i', hi', heq⟩ | ⟨i', j', h1, h2, h3, heq⟩) <;> intro k hk <;>
      rw [Finset.mem_Ioo] at hk
    · injection heq with ei ej
      exfalso
      omega
    · injection heq with ei ej
      subst ei
      subst ej
      intro hb
      have htrue : naturalObstructed series i (series.getD i 0) j (series.getD j 0)
          = true :=
        (naturalObstructed_iff series i j (le_of_lt hj)).2 ⟨k, hk.1, hk.2, hb⟩
      rw [h3] at htrue
      exact absurd htrue Bool.false_ne_true
  · intro h
    by_cases hcons : j = i + 1
    · exact Or.inl ⟨i, by omega, by rw [hcons]⟩
    · refine Or.inr ⟨i, j, hij, hj, ?_, rfl⟩
      rw [← Bool.not_eq_true]
      intro htrue
      obtain ⟨k, h1, h2, h3⟩ := (naturalObstructed_iff series i j (le_of_lt hj)).1 htrue
      exact h k (Finset.mem_Ioo.2 ⟨h1, h2⟩) h3

theorem visibility_graph_edge_iff_witness :
    ((0 : ℕ) < 2 ∧ 2 < ([5, 0, 5] : List ℚ).length) ∧
      (0, 2) ∈ (visibility_graph [5, 0, 5]).edgeSet :=
  ⟨⟨by decide, by decide⟩,
    (visibility_graph_edge_iff [5, 0, 5] 0 2 (by decide) (by decide)).mpr (by
      intro k hk
      rw [Finset.mem_Ioo] at hk
      have hk1 : k = 1 := by omega
      subst hk1
      simp only [naturalBlocks, specOffset, specSlope]
      have e0 : ([5, 0, 5] : List ℚ).getD 0 0 = 5 := by decide
      have e1 : ([5, 0, 5] : List ℚ).getD 1 0 = 0 := by decide
      have e2 : ([5, 0, 5] : List ℚ).getD 2 0 = 5 := by decide
      rw [e0, e1, e2]
      norm_num)⟩

/-- C2: for every numeric series and pair of indices `i < j < length`, the
horizontal visibility graph contains the edge `\x7bi, j\x7d` iff no intermediate
index `k` with `i < k < j` satisfies
`series[k] >= max(series[i], series[j])`. -/
theorem horizontal_visibility_graph_edge_iff (series : List ℚ) (i j : ℕ)
    (hij : i < j) (hj : j < series.length) :
    ((i, j) ∈ (horizontal_visibility_graph series).edgeSet ↔
      ∀ k ∈ Finset.Ioo i j, ¬ horizontalBlocks series i j k) := by
  rw [mem_horizontal_edgeSet]
  constructor
  · rintro (⟨i', hi', heq⟩ | ⟨i', j', h1, h2, h3, heq⟩) <;> intro k hk <;>
      rw [Finset.mem_Ioo] at hk
    · injection heq with ei ej
      exfalso
      omega
    · injection heq with ei ej
      subst ei
      subst ej
      intro hb
      have htrue : horizontalObstructed series i (series.getD i 0) j (series.getD j 0)
          = true :=
        (horizontalObstructed_iff series i j (le_of_lt hj)).2 ⟨k, hk.1, hk.2, hb⟩
      rw [h3] at htrue
      exact absurd htrue Bool.false_ne_true
  · intro h
    by_cases hcons : j = i + 1
    · exact Or.inl ⟨i, by omega, by rw [hcons]⟩
    · refine Or.inr ⟨i, j, hij, hj, ?_, rfl⟩
      rw [← Bool.not_eq_true]
      intro htrue
      obtain ⟨k, h1, h2, h3⟩ :=
        (horizontalObstructed_iff series i j (le_of_lt hj)).1 htrue
      exact h k (Finset.mem_Ioo.2 ⟨h1, h2⟩) h3

theorem horizontal_visibility_graph_edge_iff_witness :
    ((0 : ℕ) < 2 ∧ 2 < ([2, 1, 3] : List ℚ).length) ∧
      (0, 2) ∈ (horizontal_visibility_graph [2, 1, 3]).edgeSet :=
  ⟨⟨by decide, by decide⟩,
    (horizontal_visibility_graph_edge_iff [2, 1, 3] 0 2 (by decide)
      (by decide)).mpr (by decide)⟩

/-- C3: every edge of the directed horizontal visibility graph is oriented
from the smaller (earlier) index to the larger (later) index. -/
theorem directed_horizontal_visibility_graph_oriented (timeseries : List ℚ) :
    ∀ e ∈ (directed_horizontal_visibility_graph timeseries).edgeSet, e.1 < e.2 := by
  intro e he
  rw [directed_eq_horizontal] at he
  exact horizontal_edge_lt timeseries e he

theorem directed_horizontal_visibility_graph_oriented_witness :
    (0, 1) ∈ (directed_horizontal_visibility_graph [2, 1, 3]).edgeSet ∧ (0 : ℕ) < 1 :=
  ⟨by decide,
    directed_horizontal_visibility_graph_oriented [2, 1, 3] (0, 1) (by decide)⟩

/-- C4: for every series with `i + 1 < length`, all three constructors put an
edge between the consecutive indices `i` and `i + 1`. -/
theorem consecutive_pairs_always_edges (series : List ℚ) (i : ℕ)
    (h : i + 1 < series.length) :
    (i, i + 1) ∈ (visibility_graph series).edgeSet ∧
      (i, i + 1) ∈ (horizontal_visibility_graph series).edgeSet ∧
      (i, i + 1) ∈ (directed_horizontal_visibility_graph series).edgeSet := by
  refine ⟨?_, ?_, ?_⟩
  · rw [mem_visibility_graph_edgeSet]
    exact Or.inl ⟨i, h, rfl⟩
  · rw [mem_horizontal_edgeSet]
    exact Or.inl ⟨i, h, rfl⟩
  · rw [directed_eq_horizontal, mem_horizontal_edgeSet]
    exact Or.inl ⟨i, h, rfl⟩

theorem consecutive_pairs_always_edges_witness :
    (0, 1) ∈ (visibility_graph [1, 2, 3]).edgeSet ∧
      (0, 1) ∈ (horizontal_visibility_graph [1, 2, 3]).edgeSet ∧
      (0, 1) ∈ (directed_horizontal_visibility_graph [1, 2, 3]).edgeSet :=
  consecutive_pairs_always_edges [1, 2, 3] 0 (by decide)

/-- C5: for every series, each of the three constructors yields exactly the
nodes `0 .. length - 1`, and the node attribute `value` at every index `i`
below the length equals `series[i]`. -/
theorem graphs_nodes_and_values (series : List ℚ) :
    ((visibility_graph series).nodes = Finset.range series.length ∧
      (horizontal_visibility_graph series).nodes = Finset.range series.length ∧
      (directed_horizontal_visibility_graph series).nodes
        = Finset.range series.length) ∧
      ∀ i, i < series.length →
        ((visibility_graph series).value i = some (series.getD i 0) ∧
          (horizontal_visibility_graph series).value i = some (series.getD i 0) ∧
          (directed_horizontal_visibility_graph series).value i
            = some (series.getD i 0)) := by
  refine ⟨⟨vg_nodes series, hvg_nodes series, ?_⟩, ?_⟩
  · rw [directed_eq_horizontal]
    exact hvg_nodes series
  · intro i hi
    have hg : series[i]? = some (series.getD i 0) := getElem?_eq_some_getD series i hi
    refine ⟨?_, ?_, ?_⟩
    · rw [vg_value]
      exact hg
    · rw [hvg_value]
      exact hg
    · rw [directed_eq_horizontal, hvg_value]
      exact hg

theorem graphs_nodes_and_values_witness :
    (visibility_graph [3, 7]).value 1 = some (([3, 7] : List ℚ).getD 1 0) :=
  ((graphs_nodes_and_values [3, 7]).2 1 (by decide)).1

/-- C6: the claimed containment of the horizontal edge set in the natural
edge set fails on the code: on the series `[0, 6, 10]` the horizontal graph
has the edge `(0, 2)` (the intermediate value 6 stays below
`max(0, 10) = 10`) while the natural graph does not (6 lies above the
connecting line of height 5 at index 1). -/
theorem horizontal_not_subset_visibility :
    (0, 2) ∈ (horizontal_visibility_graph [0, 6, 10]).edgeSet ∧
      (0, 2) ∉ (visibility_graph [0, 6, 10]).edgeSet := by
  constructor
  · decide
  · intro hmem
    rw [mem_visibility_graph_edgeSet] at hmem
    rcases hmem with ⟨i, hi, heq⟩ | ⟨i, j, h1, h2, h3, heq⟩
    · injection heq with e1 e2
      omega
    · injection heq with e1 e2
      subst e1
      subst e2
      have hobs : naturalObstructed [0, 6, 10] 0 (([0, 6, 10] : List ℚ).getD 0 0) 2
          (([0, 6, 10] : List ℚ).getD 2 0) = true := by
        rw [naturalObstructed_iff _ 0 2 (by decide)]
        refine ⟨1, by omega, by omega, ?_⟩
        simp only [naturalBlocks, specOffset, specSlope]
        have e0 : ([0, 6, 10] : List ℚ).getD 0 0 = 0 := by decide
        have e1 : ([0, 6, 10] : List ℚ).getD 1 0 = 6 := by decide
        have e2 : ([0, 6, 10] : List ℚ).getD 2 0 = 10 := by decide
        rw [e0, e1, e2]
        norm_num
      rw [h3] at hobs
      exact absurd hobs Bool.false_ne_true

/-- C7: forgetting orientation, the edge set of the directed horizontal
visibility graph is exactly the edge set of the undirected horizontal
visibility graph. -/
theorem directed_edgeSet_is_horizontal_edgeSet (timeseries : List ℚ) :
    ((directed_horizontal_visibility_graph timeseries).edgeSet.image
        fun e => (min e.1 e.2, max e.1 e.2)) =
      (horizontal_visibility_graph timeseries).edgeSet := by
  rw [directed_eq_horizontal]
  ext e
  rw [Finset.mem_image]
  constructor
  · rintro ⟨a, ha, rfl⟩
    have hlt := horizontal_edge_lt timeseries a ha
    rw [min_eq_left (Nat.le_of_lt hlt), max_eq_right (Nat.le_of_lt hlt)]
    exact ha
  · intro he
    refine ⟨e, he, ?_⟩
    have hlt := horizontal_edge_lt timeseries e he
    rw [min_eq_left (Nat.le_of_lt hlt), max_eq_right (Nat.le_of_lt hlt)]

/-- C8: the visibility graph of the strictly increasing series
`range(10)` has exactly 10 nodes and exactly 9 edges. -/
theorem visibility_graph_range10 :
    (visibility_graph ((List.range 10).map fun i : ℕ => (i : ℚ))).nodes.card = 10 ∧
      (visibility_graph ((List.range 10).map fun i : ℕ => (i : ℚ))).edgeSet.card = 9 := by
  constructor
  · rw [vg_nodes]
    simp only [List.length_map, List.length_range, Finset.card_range]
  · have hinj : Function.Injective fun i : ℕ => (i, i + 1) :=
      fun a b hab => congrArg Prod.fst hab
    rw [vg_ramp_edges, Finset.card_image_of_injective _ hinj, Finset.card_range]

/-- C9: the horizontal visibility graph of the periodic series
`[2,1,3,2,1,3,2,1,3,2,1,3]` has 12 nodes but 21 edges, not the 18 edges the
documentation claims. -/
theorem horizontal_visibility_graph_periodic_card :
    (horizontal_visibility_graph [2, 1, 3, 2, 1, 3, 2, 1, 3, 2, 1, 3]).nodes.card
        = 12 ∧
      (horizontal_visibility_graph [2, 1, 3, 2, 1, 3, 2, 1, 3, 2, 1, 3]).edgeSet.card
        = 21 ∧
      (horizontal_visibility_graph [2, 1, 3, 2, 1, 3, 2, 1, 3, 2, 1, 3]).edgeSet.card
        ≠ 18 := by
  decide

/-- C10: adding a constant `c` to every element of the series leaves the edge
set of all three constructors unchanged. -/
theorem translation_invariant_edgeSets (series : List ℚ) (c : ℚ) :
    (visibility_graph (series.map fun t => t + c)).edgeSet =
        (visibility_graph series).edgeSet ∧
      (horizontal_visibility_graph (series.map fun t => t + c)).edgeSet =
        (horizontal_visibility_graph series).edgeSet ∧
      (directed_horizontal_visibility_graph (series.map fun t => t + c)).edgeSet =
        (directed_horizontal_visibility_graph series).edgeSet := by
  refine ⟨visibility_graph_map_add series c, horizontal_map_add series c, ?_⟩
  rw [directed_eq_horizontal, directed_eq_horizontal]
  exact horizontal_map_add series c

end TimeSeries
